import Mathlib

/-!
Verification of the dimensionality-reduction and dataset-loading logic of
`scripts/fisher_iris_visualization.py`, together with the scatter-object
creation routine.  Numeric code is embedded over an arbitrary linear ordered
field `K` (exact arithmetic); the external eigendecomposition routine
`np.linalg.eigh` is modelled as an explicit function argument whose
documented contract (orthonormal eigenvector columns, spectral
decomposition) appears as hypotheses where a claim needs it.
-/

namespace FisherIris

section PCAmodel

variable {K : Type} [LinearOrderedField K]

/-- Embedding of `M.mean(axis=0)`: the per-column mean of an `n` by `d`
numpy array. -/
def npMean0 {n d : ℕ} (M : Fin n → Fin d → K) (j : Fin d) : K :=
  (∑ i, M i j) / (n : K)

/-- Embedding of the in-place update `data -= data.mean(axis=0)`:
the value held by the buffer after the subtraction. -/
def centered {n d : ℕ} (M : Fin n → Fin d → K) : Fin n → Fin d → K :=
  fun i j => M i j - npMean0 M j

/-- Embedding of `np.cov(M, rowvar=False)`: columns are the variables;
numpy centers each column and normalises by `n - 1` (default `ddof=1`). -/
def npCov {n d : ℕ} (M : Fin n → Fin d → K) : Fin d → Fin d → K :=
  fun j l => (∑ i, (M i j - npMean0 M j) * (M i l - npMean0 M l)) / ((n : K) - 1)

/-- The pair returned by `np.linalg.eigh`: eigenvalues `val` and a square
matrix `vec` whose columns are the corresponding eigenvectors. -/
structure EighResult (d : ℕ) (K : Type) where
  val : Fin d → K
  vec : Fin d → Fin d → K

/-- Embedding of `np.argsort V`: a permutation of the index list sorting
`V` into ascending order.  (numpy uses quicksort; among equal values the
order of indices is implementation defined, so any sorting permutation is
a faithful model.  None of the verified claims depend on tie order.) -/
def argsortAsc {d : ℕ} (V : Fin d → K) : List (Fin d) :=
  List.insertionSort (fun a b => V a ≤ V b) (List.finRange d)

/-- Embedding of `idx = np.argsort(V)[::-1]`: index order of descending
eigenvalue. -/
def descIdx {d : ℕ} (V : Fin d → K) : List (Fin d) := (argsortAsc V).reverse

/-- Python slicing `l[:k]`: with `k = None` the whole list, otherwise the
first `k` elements. -/
def slice {α : Type} (k : Option ℕ) (l : List α) : List α :=
  match k with
  | none => l
  | some m => l.take m

/-- Embedding of `E = E[:, idx]` followed by `E = E[:, :num_components]`:
the retained basis, as the ordered list of columns of `E`. -/
def basisCols {d : ℕ} (V : Fin d → K) (E : Fin d → Fin d → K) (k : Option ℕ) :
    List (Fin d → K) :=
  slice k ((descIdx V).map (fun c => fun r => E r c))

/-- The values returned by `PCA`, plus `buf`, the final contents of the
caller-supplied `data` buffer (which line 11 of the source mutates in
place).  `proj` is the projected matrix `np.dot(E.T, data.T).T`, stored as
its ordered list of columns, each a vector over the `n` row indices. -/
structure PCAResult (n d : ℕ) (K : Type) where
  proj : List (Fin n → K)
  eigenvals : List K
  basis : List (Fin d → K)
  buf : Fin n → Fin d → K

/-- Embedding of `PCA(data, num_components)` from
`scripts/fisher_iris_visualization.py`, parametrised by the external
eigendecomposition routine `eigh`. -/
def PCA {n d : ℕ} (eigh : (Fin d → Fin d → K) → EighResult d K)
    (data : Fin n → Fin d → K) (num_components : Option ℕ) : PCAResult n d K :=
  -- data -= data.mean(axis=0)
  let C := centered data
  -- R = np.cov(data, rowvar=False)
  let R := npCov C
  -- V, E = np.linalg.eigh(R)
  let r := eigh R
  -- idx = np.argsort(V)[::-1]; E = E[:, idx]; E = E[:, :num_components]
  let E := basisCols r.val r.vec num_components
  -- return np.dot(E.T, data.T).T, V[idx], E
  ⟨E.map (fun e => fun i => ∑ j, C i j * e j), (descIdx r.val).map r.val, E, C⟩

end PCAmodel

section LoaderModel

/-- Embedding of Python `s.split(sep)` for a one-character separator:
splits at every occurrence, keeping empty segments. -/
def splitOnChar (sep : Char) : List Char → List (List Char)
  | [] => [[]]
  | c :: rest =>
    match splitOnChar sep rest with
    | [] => [[c]]
    | g :: gs => if c = sep then [] :: g :: gs else (c :: g) :: gs

/-- Embedding of `label.split('-')[1]`: the second hyphen-separated field
of a label, `none` when Python would raise `IndexError`. -/
def classKey (field : List Char) : Option (List Char) :=
  (splitOnChar '-' field)[1]?

/-- Embedding of the manual label loop of `load_iris` (lines 49 to 55):
iterates over the label column threading the `labels` accumulator and the
running counter `idx`, emitting `y[i] = idx - 1` for each row; `none`
models the `IndexError` raised on a label without a hyphen. -/
def loadLoop : List (List Char) → List (List Char) → ℤ →
    Option (List (List Char) × List ℤ)
  | [], labels, _ => some (labels, [])
  | f :: rest, labels, idx =>
    match classKey f with
    | none => none
    | some lab =>
      let labels1 := if lab ∈ labels then labels else labels ++ [lab]
      let idx1 := if lab ∈ labels then idx else idx + 1
      match loadLoop rest labels1 idx1 with
      | none => none
      | some (labs, ys) => some (labs, (idx1 - 1) :: ys)

/-- The manual fallback of `load_iris`, restricted to its label handling:
from the label column it produces the class-name list `labels` and the
integer target vector `y`. -/
def load_iris_manual (fields : List (List Char)) :
    Option (List (List Char) × List ℤ) :=
  loadLoop fields [] 0

/-- Modelled from the spec text of claim C2 (for comparison with the source
behaviour `classKey`): the ENTIRE substring after the first hyphen of the
field, hyphens in the class name kept whole. -/
def afterFirstHyphen (field : List Char) : Option (List Char) :=
  match splitOnChar '-' field with
  | [] => none
  | [_] => none
  | _ :: rest => some (List.intercalate ['-'] rest)

/-- First-seen-order deduplication, starting from accumulator `init`: the
order in which the loader loop appends new class names. -/
def dedupFirstSeen (init : List (List Char)) (ks : List (List Char)) :
    List (List Char) :=
  ks.foldl (fun acc k => if k ∈ acc then acc else acc ++ [k]) init

end LoaderModel

section ScatterModel

/-- The three primitive kinds dispatched on `label_idx % 3` in the first
loop of `create_scatter`. -/
inductive Shape
  | cube
  | icosphere
  | cone

/-- Observable state of one entry of `bm_list`: the primitives added to
it, and whether `to_mesh` and `free` have been called on it. -/
structure BmeshState where
  geom : List Shape
  converted : Bool
  freed : Bool

/-- Embedding of `bmesh.new()`. -/
def bmesh_new : BmeshState := ⟨[], false, false⟩

/-- The primitive chosen for a point of label `label_idx` (cube when
`label_idx % 3 == 0`, icosphere when `1`, cone otherwise). -/
def shapeFor (label_idx : ℕ) : Shape :=
  if label_idx % 3 = 0 then Shape.cube
  else if label_idx % 3 = 1 then Shape.icosphere
  else Shape.cone

/-- One first-loop step: `bmesh.ops.create_*(bm_list[label_idx], ...)`.
`none` models the `IndexError` raised when `label_idx` is out of range of
`bm_list`. -/
def addPrim (bms : List BmeshState) (label_idx : ℕ) : Option (List BmeshState) :=
  if h : label_idx < bms.length then
    some (bms.set label_idx
      { bms.get ⟨label_idx, h⟩ with
        geom := (bms.get ⟨label_idx, h⟩).geom ++ [shapeFor label_idx] })
  else none

/-- One second-loop step on the bmesh list:
`bm_list[label_idx].to_mesh(mesh); bm_list[label_idx].free()`. -/
def convertFree (bms : List BmeshState) (label_idx : ℕ) :
    Option (List BmeshState) :=
  if h : label_idx < bms.length then
    some (bms.set label_idx
      { bms.get ⟨label_idx, h⟩ with converted := true, freed := true })
  else none

/-- The fixed six-element colour list of `create_scatter`. -/
def colors : List (ℚ × ℚ × ℚ × ℚ) :=
  [(1, 0, 0, 1), (0, 1, 0, 1), (0, 0, 1, 1), (1, 1, 0, 1), (1, 0, 1, 1), (0, 1, 1, 1)]

/-- Record of one iteration of the second loop: a scene object (with its
mesh) and a material were created for this label index. -/
structure SceneObj where
  label_idx : ℕ
  color : ℚ × ℚ × ℚ × ℚ

/-- Embedding of `create_scatter(X, y)`.  `set_y` is the iteration order
of the Python expression `set(y)`, whose order over the distinct values of
`y` is implementation defined; it is passed explicitly, and the theorems
assume only that it enumerates the distinct values of `y` once each.
Point coordinates do not affect the verified claims, so rows of `X` are
abstract.  The result is the final state of `bm_list` and the created
scene objects; `none` models an uncaught `IndexError`. -/
def create_scatter {α : Type} (set_y : List ℕ) (X : List α) (y : List ℕ) :
    Option (List BmeshState × List SceneObj) := do
  -- bm_list = [bmesh.new() for _ in label_indices]
  let bm0 := List.replicate set_y.length bmesh_new
  -- for x, label_idx in zip(X, y): create primitive in bm_list[label_idx]
  let bm1 ← (List.zip X y).foldlM (fun bms xy => addPrim bms xy.2) bm0
  -- for label_idx, color in zip(label_indices, colors): mesh, object, material
  (List.zip set_y colors).foldlM
    (fun st lc =>
      (convertFree st.1 lc.1).map (fun b => (b, st.2 ++ [⟨lc.1, lc.2⟩])))
    (bm1, ([] : List SceneObj))

end ScatterModel

section SpecSide

variable {K : Type} [LinearOrderedField K]

/-- The trace of a square matrix, used to state claim C7. -/
def traceOf {d : ℕ} (M : Fin d → Fin d → K) : K := ∑ j, M j j

/-- Two `PCA` results agree up to an independent sign flip per retained
axis: same eigenvalues and buffer, and one list of unit signs rescales
both the projected columns and the basis columns. -/
def sameUpToSignFlip {n d : ℕ} (p q : PCAResult n d K) : Prop :=
  p.eigenvals = q.eigenvals ∧ p.buf = q.buf ∧
    ∃ s : List K, s.length = p.proj.length ∧ (∀ x ∈ s, x = 1 ∨ x = -1) ∧
      q.proj = List.zipWith (fun a col => fun i => a * col i) s p.proj ∧
      q.basis = List.zipWith (fun a col => fun j => a * col j) s p.basis

end SpecSide

section ConcreteInstances

/-- A concrete stand-in for `np.linalg.eigh` on the two-by-two covariance
matrix of `exampleData` below: eigenvalues in ascending order with
orthonormal eigenvector columns, as the library contract promises. -/
def eighStub : (Fin 2 → Fin 2 → ℚ) → EighResult 2 ℚ :=
  fun _ => ⟨![0, 2], ![![0, 1], ![1, 0]]⟩

/-- Concrete two-by-two dataset: rows `(0, 0)` and `(2, 0)`.  Centering
gives rows `(-1, 0)` and `(1, 0)`; the covariance matrix is
`[[2, 0], [0, 0]]`, for which `eighStub` is an exact eigendecomposition. -/
def exampleData : Fin 2 → Fin 2 → ℚ := ![![0, 0], ![2, 0]]

end ConcreteInstances

section Helpers

variable {K : Type} [LinearOrderedField K]

theorem length_argsortAsc {d : ℕ} (V : Fin d → K) : (argsortAsc V).length = d := by
  unfold argsortAsc
  rw [(List.perm_insertionSort _ _).length_eq, List.length_finRange]

theorem descIdx_perm {d : ℕ} (V : Fin d → K) :
    (descIdx V).Perm (List.finRange d) :=
  (List.reverse_perm _).trans (List.perm_insertionSort _ _)

theorem length_descIdx {d : ℕ} (V : Fin d → K) : (descIdx V).length = d := by
  rw [descIdx, List.length_reverse, length_argsortAsc]

theorem sum_map_descIdx {d : ℕ} (V : Fin d → K) {M : Type} [AddCommMonoid M]
    (f : Fin d → M) : ((descIdx V).map f).sum = ∑ c, f c := by
  rw [Fin.sum_univ_def]
  exact ((descIdx_perm V).map f).sum_eq

theorem length_basisCols_some {d : ℕ} (V : Fin d → K) (E : Fin d → Fin d → K)
    (k : ℕ) : (basisCols V E (some k)).length = min k d := by
  unfold basisCols slice
  rw [List.length_take, List.length_map, length_descIdx]

theorem basisCols_some_of_le {d : ℕ} (V : Fin d → K) (E : Fin d → Fin d → K)
    (k : ℕ) (h : d ≤ k) : basisCols V E (some k) = basisCols V E none := by
  unfold basisCols slice
  apply List.take_of_length_le
  rw [List.length_map, length_descIdx]
  exact h

theorem pca_proj_length_some {n d : ℕ}
    (eigh : (Fin d → Fin d → K) → EighResult d K) (data : Fin n → Fin d → K)
    (k : ℕ) : (PCA eigh data (some k)).proj.length = min k d := by
  simp only [PCA, List.length_map, length_basisCols_some]

theorem pca_proj_basis_length {n d : ℕ}
    (eigh : (Fin d → Fin d → K) → EighResult d K) (data : Fin n → Fin d → K)
    (k : Option ℕ) : (PCA eigh data k).proj.length = (PCA eigh data k).basis.length := by
  simp only [PCA, List.length_map]

theorem zipWith_one_smul {α : Type} :
    ∀ (l : List (α → K)) (m : ℕ), l.length ≤ m →
      List.zipWith (fun a col => fun i => a * col i)
        (List.replicate m (1 : K)) l = l
  | [], _, _ => by simp
  | c :: l, m + 1, h => by
    rw [List.replicate_succ, List.zipWith_cons_cons,
      zipWith_one_smul l m (by simpa using h)]
    congr 1
    funext i
    exact one_mul (c i)

theorem rows_orthonormal {d : ℕ} (E : Fin d → Fin d → K)
    (h : ∀ c c', (∑ r, E r c * E r c') = if c = c' then (1 : K) else 0) :
    ∀ j j', (∑ c, E j c * E j' c) = if j = j' then (1 : K) else 0 := by
  have h1 : Matrix.transpose (Matrix.of E) * Matrix.of E = 1 := by
    ext c c'
    rw [Matrix.mul_apply, Matrix.one_apply]
    simpa [Matrix.transpose_apply, Matrix.of_apply] using h c c'
  have h2 : Matrix.of E * Matrix.transpose (Matrix.of E) = 1 :=
    Matrix.mul_eq_one_comm.mp h1
  intro j j'
  have h3 : (Matrix.of E * Matrix.transpose (Matrix.of E)) j j' =
      (1 : Matrix (Fin d) (Fin d) K) j j' := by
    rw [h2]
  rw [Matrix.mul_apply, Matrix.one_apply] at h3
  simpa [Matrix.transpose_apply, Matrix.of_apply] using h3

end Helpers

section PCAClaims

/-- C3: for every non-empty `n` by `d` matrix and every requested component
count `k` with `k > d`, `PCA` raises no error (the embedding is a total
function and the slice simply keeps every column) and the projected matrix
has width `d`, not the requested `k`; the whole result coincides with the
full-basis run `num_components = None`. -/
theorem pca_overlarge_components_full_width {K : Type} [LinearOrderedField K]
    {n d : ℕ} (eigh : (Fin d → Fin d → K) → EighResult d K)
    (data : Fin n → Fin d → K) (k : ℕ) (hn : 1 ≤ n) (hk : d < k) :
    (PCA eigh data (some k)).proj.length = d ∧
      (PCA eigh data (some k)).proj.length ≠ k ∧
      PCA eigh data (some k) = PCA eigh data none := by
  have hmin : min k d = d := min_eq_right hk.le
  refine ⟨by rw [pca_proj_length_some, hmin], by rw [pca_proj_length_some, hmin]; exact hk.ne, ?_⟩
  simp only [PCA, basisCols_some_of_le _ _ _ hk.le]

/-- Witness for C3 at a concrete input: two points in two dimensions with
three requested components. -/
theorem pca_overlarge_components_full_width_witness :
    (PCA eighStub exampleData (some 3)).proj.length = 2 ∧
      (PCA eighStub exampleData (some 3)).proj.length ≠ 3 ∧
      PCA eighStub exampleData (some 3) = PCA eighStub exampleData none :=
  pca_overlarge_components_full_width eighStub exampleData 3 (by decide) (by decide)

/-- C5: for every non-empty `n` by `d` matrix and every `k` with
`1 ≤ k ≤ d`, the projected matrix returned by `PCA` has exactly `k`
columns (its rows are indexed by the `n` row indices by construction). -/
theorem pca_output_width {K : Type} [LinearOrderedField K]
    {n d : ℕ} (eigh : (Fin d → Fin d → K) → EighResult d K)
    (data : Fin n → Fin d → K) (k : ℕ) (hn : 1 ≤ n) (hk1 : 1 ≤ k)
    (hkd : k ≤ d) : (PCA eigh data (some k)).proj.length = k := by
  rw [pca_proj_length_some]
  exact min_eq_left hkd

/-- Witness for C5 at a concrete input: two points in two dimensions
reduced to one component. -/
theorem pca_output_width_witness :
    (PCA eighStub exampleData (some 1)).proj.length = 1 :=
  pca_output_width eighStub exampleData 1 (by decide) (by decide) (by decide)

/-- C6: for every non-empty input matrix the eigenvalue list returned by
`PCA` is sorted in non-increasing order, whatever values the
eigendecomposition routine produced, because the code reorders them by
`np.argsort(V)[::-1]`. -/
theorem pca_eigenvals_sorted {K : Type} [LinearOrderedField K]
    {n d : ℕ} (eigh : (Fin d → Fin d → K) → EighResult d K)
    (data : Fin n → Fin d → K) (k : Option ℕ) (hn : 1 ≤ n) :
    ((PCA eigh data k).eigenvals).Sorted (fun a b => b ≤ a) := by
  show (((argsortAsc _).reverse).map _).Sorted _
  set V := (eigh (npCov (centered data))).val with hV
  haveI : IsTotal (Fin d) (fun a b => V a ≤ V b) := ⟨fun a b => le_total _ _⟩
  haveI : IsTrans (Fin d) (fun a b => V a ≤ V b) := ⟨fun a b c => le_trans⟩
  have hs : (argsortAsc V).Sorted (fun a b => V a ≤ V b) :=
    List.sorted_insertionSort _ _
  have hmap : ((argsortAsc V).map V).Sorted (fun a b : K => a ≤ b) :=
    List.Pairwise.map V (fun a b h => h) hs
  rw [List.map_reverse]
  exact (List.pairwise_reverse).mpr hmap

/-- Witness for C6 at a concrete input. -/
theorem pca_eigenvals_sorted_witness :
    ((PCA eighStub exampleData (some 3)).eigenvals).Sorted (fun a b => b ≤ a) :=
  pca_eigenvals_sorted eighStub exampleData (some 3) (by decide)

/-- C8: `PCA` uses no randomness: with the host library eigendecomposition
fixed, two calls on equal input values with the same component count give
results that are equal up to an independent sign flip per axis (in fact
equal outright, the sign flips all being `+1`). -/
theorem pca_deterministic {K : Type} [LinearOrderedField K]
    {n d : ℕ} (eigh : (Fin d → Fin d → K) → EighResult d K)
    (data1 data2 : Fin n → Fin d → K) (k : Option ℕ) (h : data1 = data2) :
    sameUpToSignFlip (PCA eigh data1 k) (PCA eigh data2 k) := by
  subst h
  refine ⟨rfl, rfl, List.replicate (PCA eigh data1 k).proj.length 1,
    List.length_replicate _ _, fun x hx => Or.inl (List.eq_of_mem_replicate hx),
    (zipWith_one_smul _ _ le_rfl).symm, ?_⟩
  rw [zipWith_one_smul _ _ (le_of_eq (pca_proj_basis_length eigh data1 k).symm)]

/-- Witness for C8 at a concrete input. -/
theorem pca_deterministic_witness :
    sameUpToSignFlip (PCA eighStub exampleData (some 3))
      (PCA eighStub exampleData (some 3)) :=
  pca_deterministic eighStub exampleData exampleData (some 3) rfl

/-- C9: `PCA` updates the caller-supplied data buffer in place exactly
once, by line 11 `data -= data.mean(axis=0)`: afterwards every entry holds
the original value minus the per-column mean, and the embedding performs
no other write to the buffer (every later step reads it or builds new
arrays). -/
theorem pca_buffer_centered {K : Type} [LinearOrderedField K]
    {n d : ℕ} (eigh : (Fin d → Fin d → K) → EighResult d K)
    (data : Fin n → Fin d → K) (k : Option ℕ) :
    ∀ i j, (PCA eigh data k).buf i j = data i j - (∑ r, data r j) / (n : K) :=
  fun _ _ => rfl

/-- C4: for every non-empty matrix, running `PCA` with `k = d` and then
multiplying the returned projected matrix by the transpose of the
returned basis reconstructs the centered input data — exactly, in the
exact-arithmetic embedding, so in particular up to floating-point
tolerance and with every per-axis sign flip equal to `+1` — provided the
eigendecomposition routine honours its contract that the eigenvector
columns are orthonormal. -/
theorem pca_full_basis_reconstruction {K : Type} [LinearOrderedField K]
    {n d : ℕ} (eigh : (Fin d → Fin d → K) → EighResult d K)
    (data : Fin n → Fin d → K) (hn : 1 ≤ n)
    (hOrtho : ∀ c c', (∑ r, (eigh (npCov (centered data))).vec r c *
        (eigh (npCov (centered data))).vec r c') = if c = c' then (1 : K) else 0) :
    ∀ i r, (List.zipWith (fun p e => p i * e r)
        (PCA eigh data (some d)).proj (PCA eigh data (some d)).basis).sum
      = centered data i r := by
  intro i r
  have hrows := rows_orthonormal _ hOrtho
  set C := centered data with hC
  set E := (eigh (npCov C)).vec with hE
  set V := (eigh (npCov C)).val with hV
  have hfull : (PCA eigh data (some d)).basis =
      (descIdx V).map (fun c => fun rr => E rr c) := by
    show basisCols V E (some d) = _
    rw [basisCols_some_of_le V E d le_rfl]
    rfl
  have hproj : (PCA eigh data (some d)).proj =
      ((PCA eigh data (some d)).basis).map (fun e => fun ii => ∑ j, C ii j * e j) := rfl
  rw [hproj, hfull, List.map_map, List.zipWith_map_left, List.zipWith_map_right,
    List.zipWith_same, sum_map_descIdx]
  calc ∑ c, (∑ j, C i j * E j c) * E r c
      = ∑ c, ∑ j, C i j * E j c * E r c := by
        exact Finset.sum_congr rfl (fun c _ => Finset.sum_mul _ _ _)
    _ = ∑ j, ∑ c, C i j * E j c * E r c := Finset.sum_comm
    _ = ∑ j, C i j * ∑ c, E j c * E r c := by
        refine Finset.sum_congr rfl (fun j _ => ?_)
        rw [Finset.mul_sum]
        exact Finset.sum_congr rfl (fun c _ => by ring)
    _ = ∑ j, C i j * if j = r then 1 else 0 := by
        exact Finset.sum_congr rfl (fun j _ => by rw [hrows j r])
    _ = C i r := by
        simp [mul_ite, mul_one, mul_zero, Finset.sum_ite_eq']

/-- Witness for C4 at a concrete input, entry (0, 0) of the
reconstruction. -/
theorem pca_full_basis_reconstruction_witness :
    (List.zipWith (fun p e => p 0 * e 0)
        (PCA eighStub exampleData (some 2)).proj
        (PCA eighStub exampleData (some 2)).basis).sum
      = centered exampleData 0 0 :=
  pca_full_basis_reconstruction eighStub exampleData (by decide)
    (by simp [eighStub, Fin.forall_fin_two, Fin.sum_univ_succ]) 0 0

/-- C7: for every `n` by `d` matrix with `n ≥ 2`, given the contract of the
eigendecomposition at the covariance matrix (orthonormal eigenvector
columns, spectral decomposition), the sum of the `d` eigenvalues returned
by `PCA` equals the trace of the covariance matrix of the centered data —
exactly, in the exact-arithmetic embedding, hence within floating-point
tolerance. -/
theorem pca_eigenvalue_sum_eq_trace {K : Type} [LinearOrderedField K]
    {n d : ℕ} (eigh : (Fin d → Fin d → K) → EighResult d K)
    (data : Fin n → Fin d → K) (k : Option ℕ) (hn : 2 ≤ n)
    (hOrtho : ∀ c c', (∑ r, (eigh (npCov (centered data))).vec r c *
        (eigh (npCov (centered data))).vec r c') = if c = c' then (1 : K) else 0)
    (hSpec : ∀ j l, npCov (centered data) j l =
        ∑ c, (eigh (npCov (centered data))).vec j c *
          (eigh (npCov (centered data))).val c *
          (eigh (npCov (centered data))).vec l c) :
    ((PCA eigh data k).eigenvals).sum = traceOf (npCov (centered data)) := by
  set C := centered data with hC
  set E := (eigh (npCov C)).vec with hE
  set V := (eigh (npCov C)).val with hV
  have h1 : ((PCA eigh data k).eigenvals).sum = ∑ c, V c := by
    show ((descIdx V).map V).sum = ∑ c, V c
    exact sum_map_descIdx V V
  have h2 : traceOf (npCov C) = ∑ c, V c := by
    unfold traceOf
    calc ∑ j, npCov C j j
        = ∑ j, ∑ c, E j c * V c * E j c :=
          Finset.sum_congr rfl (fun j _ => hSpec j j)
      _ = ∑ c, ∑ j, E j c * V c * E j c := Finset.sum_comm
      _ = ∑ c, V c * ∑ j, E j c * E j c := by
          refine Finset.sum_congr rfl (fun c _ => ?_)
          rw [Finset.mul_sum]
          exact Finset.sum_congr rfl (fun j _ => by ring)
      _ = ∑ c, V c := by
          refine Finset.sum_congr rfl (fun c _ => ?_)
          rw [hOrtho c c, if_pos rfl, mul_one]
  rw [h1, h2]

/-- Witness for C7 at a concrete input: two points in two dimensions. -/
theorem pca_eigenvalue_sum_eq_trace_witness :
    ((PCA eighStub exampleData (some 3)).eigenvals).sum =
      traceOf (npCov (centered exampleData)) :=
  pca_eigenvalue_sum_eq_trace eighStub exampleData (some 3) (by decide)
    (by simp [eighStub, Fin.forall_fin_two, Fin.sum_univ_succ])
    (by norm_num [eighStub, npCov, centered, npMean0, exampleData,
      Fin.forall_fin_two, Fin.sum_univ_succ])

end PCAClaims

section LoaderClaims

theorem loadLoop_labels (fields : List (List Char)) :
    ∀ (labels : List (List Char)) (idx : ℤ),
      (∀ f ∈ fields, (classKey f).isSome) →
      ∃ ys, loadLoop fields labels idx =
        some (dedupFirstSeen labels (fields.filterMap classKey), ys) := by
  induction fields with
  | nil => exact fun labels idx _ => ⟨[], rfl⟩
  | cons f rest ih =>
    intro labels idx h
    obtain ⟨lab, hlab⟩ :=
      Option.isSome_iff_exists.mp (h f (List.mem_cons_self f rest))
    obtain ⟨ys, hys⟩ := ih (if lab ∈ labels then labels else labels ++ [lab])
      (if lab ∈ labels then idx else idx + 1)
      (fun g hg => h g (List.mem_cons_of_mem f hg))
    refine ⟨((if lab ∈ labels then idx else idx + 1) - 1) :: ys, ?_⟩
    simp only [loadLoop, hlab, hys, dedupFirstSeen, List.filterMap_cons,
      List.foldl_cons]

/-- C1 (evaluation at the failing input): on the interleaved label column
`x-a, x-b, x-a` the manual loader produces `y = [0, 1, 1]`: the third row,
of class `a`, receives integer label `1` — the running count of distinct
classes minus one, which is the first-seen index of class `b` — instead of
the first-seen index `0` of its own class, because line 55 assigns
`y[i] = idx - 1` from the counter rather than from the index of the class
name of row `i`.  The class-name list itself is in first-seen order. -/
theorem load_iris_interleaved_run :
    load_iris_manual ["x-a".data, "x-b".data, "x-a".data] =
      some (["a".data, "b".data], [0, 1, 1]) := by decide

/-- C2 (counterexample): on the single-field column `x-foo-bar`, whose
class name contains a hyphen, the loader records class identity `foo` —
the second hyphen-separated field — whereas the entire substring after the
first hyphen is `foo-bar`; the two differ, refuting the claim as stated. -/
theorem loader_not_whole_suffix :
    load_iris_manual ["x-foo-bar".data] = some (["foo".data], [0]) ∧
      afterFirstHyphen "x-foo-bar".data = some "foo-bar".data ∧
      "foo".data ≠ "foo-bar".data := by decide

/-- C2 (amended): for every label column each of whose fields splits into
at least two hyphen-separated parts, the manual loader succeeds and the
class identity it uses for grouping and for the labels list is the SECOND
hyphen-separated field of each label (`classKey`, the substring between
the first and second hyphens — a class name containing a further hyphen is
truncated at it): the labels list is the first-seen-order deduplication of
those second fields. -/
theorem loader_second_field_amended (fields : List (List Char))
    (h : ∀ f ∈ fields, (classKey f).isSome) :
    ∃ ys, load_iris_manual fields =
      some (dedupFirstSeen [] (fields.filterMap classKey), ys) :=
  loadLoop_labels fields [] 0 h

/-- Witness for the amended C2 at a concrete input containing a hyphenated
class name. -/
theorem loader_second_field_amended_witness :
    (∀ f ∈ ["x-foo-bar".data, "x-b".data, "x-foo-qux".data],
        (classKey f).isSome) ∧
      ∃ ys, load_iris_manual ["x-foo-bar".data, "x-b".data, "x-foo-qux".data] =
        some (dedupFirstSeen []
          (["x-foo-bar".data, "x-b".data, "x-foo-qux".data].filterMap classKey),
          ys) :=
  ⟨by decide, loader_second_field_amended _ (by decide)⟩

end LoaderClaims

section ScatterClaims

theorem map_fst_zip_take {A B : Type} :
    ∀ (l1 : List A) (l2 : List B),
      (List.zip l1 l2).map Prod.fst = l1.take l2.length
  | [], _ => by simp
  | _ :: _, [] => by simp
  | a :: l1, b :: l2 => by
    simp only [List.zip_cons_cons, List.map_cons, List.length_cons,
      List.take_succ_cons, map_fst_zip_take l1 l2]

theorem getD_replicate_self {A : Type} (m i : ℕ) (a : A) :
    (List.replicate m a).getD i a = a := by
  rw [List.getD_eq_getElem?_getD, List.getElem?_replicate]
  by_cases h : i < m <;> simp [h]

theorem addPrim_flags {bms : List BmeshState} {l : ℕ} (h : l < bms.length) :
    ∃ bms2, addPrim bms l = some bms2 ∧ bms2.length = bms.length ∧
      ∀ i, (bms2.getD i bmesh_new).converted = (bms.getD i bmesh_new).converted ∧
        (bms2.getD i bmesh_new).freed = (bms.getD i bmesh_new).freed := by
  refine ⟨_, by rw [addPrim, dif_pos h], List.length_set _ _ _, fun i => ?_⟩
  by_cases hi : l = i
  · subst hi
    rw [List.getD_eq_getElem?_getD, List.getElem?_set_self (by simpa using h),
      List.getD_eq_getElem?_getD, List.getElem?_eq_getElem h]
    exact ⟨rfl, rfl⟩
  · rw [List.getD_eq_getElem?_getD, List.getElem?_set_ne hi,
      List.getD_eq_getElem?_getD]
    exact ⟨rfl, rfl⟩

theorem foldlM_addPrim {A : Type} :
    ∀ (pairs : List (A × ℕ)) (bms : List BmeshState),
      (∀ p ∈ pairs, p.2 < bms.length) →
      ∃ bms2,
        (pairs.foldlM (fun b (xy : A × ℕ) => addPrim b xy.2) bms) = some bms2 ∧
        bms2.length = bms.length ∧
        ∀ i, (bms2.getD i bmesh_new).converted = (bms.getD i bmesh_new).converted ∧
          (bms2.getD i bmesh_new).freed = (bms.getD i bmesh_new).freed
  | [], bms, _ => ⟨bms, rfl, rfl, fun _ => ⟨rfl, rfl⟩⟩
  | p :: pairs, bms, h => by
    obtain ⟨b1, hb1, hlen1, hflags1⟩ :=
      addPrim_flags (h p (List.mem_cons_self _ _))
    obtain ⟨b2, hb2, hlen2, hflags2⟩ := foldlM_addPrim pairs b1
      (fun q hq => hlen1 ▸ h q (List.mem_cons_of_mem _ hq))
    refine ⟨b2, ?_, hlen2.trans hlen1, fun i => ?_⟩
    · rw [List.foldlM_cons, hb1]
      simpa using hb2
    · exact ⟨(hflags2 i).1.trans (hflags1 i).1, (hflags2 i).2.trans (hflags1 i).2⟩

theorem convertFree_spec {bms : List BmeshState} {l : ℕ} (h : l < bms.length) :
    ∃ bms2, convertFree bms l = some bms2 ∧ bms2.length = bms.length ∧
      ∀ i, i ≠ l → bms2.getD i bmesh_new = bms.getD i bmesh_new := by
  refine ⟨_, by rw [convertFree, dif_pos h], List.length_set _ _ _, fun i hi => ?_⟩
  rw [List.getD_eq_getElem?_getD, List.getElem?_set_ne (Ne.symm hi),
    List.getD_eq_getElem?_getD]

theorem foldlM_convertFree :
    ∀ (pairs : List (ℕ × (ℚ × ℚ × ℚ × ℚ))) (bms : List BmeshState)
      (objs : List SceneObj),
      (∀ p ∈ pairs, p.1 < bms.length) →
      ∃ bms2,
        (pairs.foldlM
          (fun (st : List BmeshState × List SceneObj) lc =>
            (convertFree st.1 lc.1).map (fun b => (b, st.2 ++ [⟨lc.1, lc.2⟩])))
          (bms, objs)) = some (bms2, objs ++ pairs.map (fun p => ⟨p.1, p.2⟩)) ∧
        bms2.length = bms.length ∧
        ∀ i, i ∉ pairs.map Prod.fst → bms2.getD i bmesh_new = bms.getD i bmesh_new
  | [], bms, objs, _ => ⟨bms, by simp, rfl, fun _ _ => rfl⟩
  | p :: pairs, bms, objs, h => by
    obtain ⟨b1, hb1, hlen1, hu1⟩ :=
      convertFree_spec (h p (List.mem_cons_self _ _))
    obtain ⟨b2, hb2, hlen2, hu2⟩ := foldlM_convertFree pairs b1 (objs ++ [⟨p.1, p.2⟩])
      (fun q hq => hlen1 ▸ h q (List.mem_cons_of_mem _ hq))
    refine ⟨b2, ?_, hlen2.trans hlen1, fun i hi => ?_⟩
    · rw [List.foldlM_cons, hb1]
      simpa [List.append_assoc] using hb2
    · have hi1 : i ∉ pairs.map Prod.fst := fun hmem => hi (by simp [hmem])
      have hip : i ≠ p.1 := fun he => hi (by simp [he])
      rw [hu2 i hi1, hu1 i hip]

/-- C10: `create_scatter` creates one scene object (with its mesh) and one
material per distinct label index, but only for at most six distinct
labels — the length of its fixed colour list — because
`zip(label_indices, colors)` truncates the second loop: for every label
vector `y` with more than six distinct values (the values forming a
contiguous range indexing `bm_list`, per the data model), the call raises
no error, exactly the first six labels of the set-iteration order receive
an object, and every distinct label beyond the sixth gets no object and no
material, and its bmesh is never converted and never freed. -/
theorem create_scatter_six_label_truncation {α : Type}
    (set_y : List ℕ) (X : List α) (y : List ℕ)
    (hnodup : set_y.Nodup)
    (hmem : ∀ v, v ∈ set_y ↔ v ∈ y)
    (hrange : ∀ v ∈ y, v < set_y.length)
    (hlen : X.length = y.length)
    (hgt : 6 < set_y.length) :
    ∃ bms objs, create_scatter set_y X y = some (bms, objs) ∧
      objs.map SceneObj.label_idx = set_y.take 6 ∧
      ∀ l ∈ set_y.drop 6,
        l ∉ objs.map SceneObj.label_idx ∧
        (bms.getD l bmesh_new).converted = false ∧
        (bms.getD l bmesh_new).freed = false := by
  obtain ⟨bm1, hbm1, hlen1, hflags1⟩ :=
    foldlM_addPrim (List.zip X y) (List.replicate set_y.length bmesh_new)
      (fun p hp => by
        rw [List.length_replicate]
        exact hrange p.2 (List.of_mem_zip hp).2)
  obtain ⟨bms2, hbms2, hlen2, hu2⟩ :=
    foldlM_convertFree (List.zip set_y colors) bm1 []
      (fun p hp => by
        rw [hlen1, List.length_replicate]
        exact hrange p.1 ((hmem p.1).mp (List.of_mem_zip hp).1))
  have htake : ((List.zip set_y colors).map Prod.fst) = set_y.take 6 :=
    map_fst_zip_take set_y colors
  refine ⟨bms2, [] ++ (List.zip set_y colors).map (fun p => ⟨p.1, p.2⟩), ?_, ?_, ?_⟩
  · show ((List.zip X y).foldlM (fun b (xy : α × ℕ) => addPrim b xy.2)
        (List.replicate set_y.length bmesh_new) >>= _) = _
    rw [hbm1]
    simpa using hbms2
  · rw [List.nil_append, List.map_map]
    exact htake
  · intro l hl
    have hnot : l ∉ set_y.take 6 :=
      fun hmemtake => List.disjoint_take_drop hnodup le_rfl hmemtake hl
    have hnotfst : l ∉ (List.zip set_y colors).map Prod.fst := htake ▸ hnot
    refine ⟨?_, ?_, ?_⟩
    · rw [List.nil_append, List.map_map]
      exact htake ▸ hnot
    · rw [hu2 l hnotfst, (hflags1 l).1, getD_replicate_self]
      rfl
    · rw [hu2 l hnotfst, (hflags1 l).2, getD_replicate_self]
      rfl

/-- Witness for C10: seven points with seven contiguous distinct labels. -/
theorem create_scatter_six_label_truncation_witness :
    ∃ bms objs,
      create_scatter [0, 1, 2, 3, 4, 5, 6] (List.replicate 7 (0 : ℕ))
        [0, 1, 2, 3, 4, 5, 6] = some (bms, objs) ∧
      objs.map SceneObj.label_idx = List.take 6 [0, 1, 2, 3, 4, 5, 6] ∧
      ∀ l ∈ List.drop 6 [0, 1, 2, 3, 4, 5, 6],
        l ∉ objs.map SceneObj.label_idx ∧
        (bms.getD l bmesh_new).converted = false ∧
        (bms.getD l bmesh_new).freed = false :=
  create_scatter_six_label_truncation [0, 1, 2, 3, 4, 5, 6]
    (List.replicate 7 (0 : ℕ)) [0, 1, 2, 3, 4, 5, 6]
    (by decide) (fun v => Iff.rfl) (by decide) (by decide) (by decide)

end ScatterClaims

end FisherIris
